import Mathlib

/-!
# Verification of the EVSS / Biaccumulator protocol layer (rust-evss)

Shallow embedding of `src/evss.rs` and `src/biaccumulator.rs`.

Modelling conventions:
* The finite field `F` is an arbitrary `Field` with decidable equality.
* The caller-supplied randomness source (`&mut R: RngCore` in the source,
  used only through `F::rand`) is modelled as a stream of field elements
  together with a cursor; drawing one element returns the element under the
  cursor and advances it.
* The polynomial-commitment scheme `PC` (an external capability in the
  source) is modelled as a bundle of abstract operations, each threading the
  randomness source explicitly and returning `Except Error`.
* Univariate polynomials (the external `UVPolynomial` capability) are
  modelled as coefficient lists, lowest degree first, with Horner
  evaluation, exactly the observable semantics the protocol layer uses.
  (`from_coefficients_vec` additionally normalises away trailing zero
  coefficients; that normalisation is unobservable through evaluation and
  is not modelled.)
* Rust `Result<T, E>` becomes `Except E T`; an operation mutating the rng
  returns the new rng paired with its result.
-/

namespace EVSSVerify

/-- The caller-supplied randomness source: an infinite stream of field
elements and a cursor into it. -/
structure Rng (F : Type) where
  stream : Nat → F
  pos : Nat

/-- `F::rand(rng)`: draw the next element of the stream and advance. -/
def randF {F : Type} (r : Rng F) : F × Rng F :=
  (r.stream r.pos, ⟨r.stream, r.pos + 1⟩)

/-- The external polynomial-commitment capability (`PC: PolynomialCommitment`
in the source): abstract key/commitment/proof types plus the five operations
the protocol layer consumes. -/
structure CommitmentScheme (F : Type) where
  UniversalParams : Type
  CommitterKey : Type
  VerifierKey : Type
  Commitment : Type
  Randomness : Type
  Proof : Type
  Error : Type
  setup : Nat → Rng F → Except Error UniversalParams × Rng F
  trim : UniversalParams → Nat → Except Error (CommitterKey × VerifierKey)
  commit : CommitterKey → List F → Rng F → Except Error (Commitment × Randomness) × Rng F
  openAt : CommitterKey → List F → Commitment → F → F → Randomness → Rng F →
    Except Error Proof × Rng F
  check : VerifierKey → Commitment → F → F → Proof → F → Rng F → Except Error Bool × Rng F

variable {F : Type}

/-- `EVSSParams` (src/evss.rs): dealer-side key material. -/
structure EVSSParams (F : Type) (PC : CommitmentScheme F) where
  degree : Nat
  committer_key : PC.CommitterKey
  verifier_key : PC.VerifierKey

/-- `EVSSPublicParams` (src/evss.rs): verifier-visible projection. -/
structure EVSSPublicParams (F : Type) (PC : CommitmentScheme F) where
  degree : Nat
  verifier_key : PC.VerifierKey

/-- `EVSSParams::get_public_params`. -/
def EVSSParams.get_public_params {PC : CommitmentScheme F} (p : EVSSParams F PC) :
    EVSSPublicParams F PC :=
  ⟨p.degree, p.verifier_key⟩

/-- `EVSSPolynomial` (src/evss.rs): the committed secret-embedding polynomial
together with commitment and commitment randomness. -/
structure EVSSPolynomial (F : Type) (PC : CommitmentScheme F) where
  polynomial : List F
  commit : PC.Commitment
  rands : PC.Randomness

/-- `EVSSCommit` (src/evss.rs): public projection of `EVSSPolynomial`. -/
structure EVSSCommit (F : Type) (PC : CommitmentScheme F) where
  commit : PC.Commitment

/-- `EVSSPolynomial::get_commit`. -/
def EVSSPolynomial.get_commit {PC : CommitmentScheme F} (p : EVSSPolynomial F PC) :
    EVSSCommit F PC :=
  ⟨p.commit⟩

/-- `EVSSShare` (src/evss.rs): one shareholder's verifiable evaluation. -/
structure EVSSShare (F : Type) (PC : CommitmentScheme F) where
  point : F
  value : F
  challenge : F
  proof : PC.Proof

/-- Horner evaluation of a coefficient list (lowest degree first); the
observable semantics of `P::evaluate`. -/
def evalPoly [Field F] (coeffs : List F) (x : F) : F :=
  coeffs.foldr (fun c acc => c + x * acc) 0

/-- The coefficient vector built by `EVSS::commit`:
`(0..degree).map(|i| if i == 0 { secret } else { F::rand(rng) })`, drawing
one random element per index `i ≠ 0`, in order. -/
def buildSecretVecAux [Field F] (secret : F) : List Nat → Rng F → List F × Rng F
  | [], r => ([], r)
  | i :: is, r =>
    let p := if i = 0 then (secret, r) else randF r
    let q := buildSecretVecAux secret is p.2
    (p.1 :: q.1, q.2)

/-- The coefficient vector of `EVSS::commit`, indexed over `0..degree`. -/
def buildSecretVec [Field F] (degree : Nat) (secret : F) (r : Rng F) : List F × Rng F :=
  buildSecretVecAux secret (List.range degree) r

namespace EVSS

variable [Field F] (PC : CommitmentScheme F)

/-- `EVSS::setup` (src/evss.rs lines 208-219). -/
def setup (degree : Nat) (r : Rng F) : Except PC.Error (EVSSParams F PC) × Rng F :=
  let s := PC.setup degree r
  match s.1 with
  | .error e => (.error e, s.2)
  | .ok pp =>
    match PC.trim pp degree with
    | .error e => (.error e, s.2)
    | .ok (ck, vk) => (.ok ⟨degree, ck, vk⟩, s.2)

/-- `EVSS::commit` (src/evss.rs lines 221-236). -/
def commit (pp : EVSSParams F PC) (secret : F) (r : Rng F) :
    Except PC.Error (EVSSPolynomial F PC) × Rng F :=
  let v := buildSecretVec pp.degree secret r
  let c := PC.commit pp.committer_key v.1 v.2
  match c.1 with
  | .error e => (.error e, c.2)
  | .ok (lc, rd) => (.ok ⟨v.1, lc, rd⟩, c.2)

/-- `EVSS::get_share` (src/evss.rs lines 238-260). -/
def get_share (point : F) (params : EVSSParams F PC) (poly : EVSSPolynomial F PC)
    (r : Rng F) : Except PC.Error (EVSSShare F PC) × Rng F :=
  let c := randF r
  let o := PC.openAt params.committer_key poly.polynomial poly.commit point c.1 poly.rands c.2
  match o.1 with
  | .error e => (.error e, o.2)
  | .ok pr => (.ok ⟨point, evalPoly poly.polynomial point, c.1, pr⟩, o.2)

/-- `EVSS::check` (src/evss.rs lines 262-277). -/
def check (params : EVSSPublicParams F PC) (cm : EVSSCommit F PC) (share : EVSSShare F PC)
    (r : Rng F) : Except PC.Error Bool × Rng F :=
  PC.check params.verifier_key cm.commit share.point share.value share.proof share.challenge r

/-- `EVSS::reconstruct` (src/evss.rs lines 279-296): Lagrange interpolation at
`x = 0`, folded exactly as the two nested `for` loops of the source. -/
def reconstruct [DecidableEq F] (shares : List (EVSSShare F PC)) : F :=
  shares.foldl
    (fun res sh1 =>
      res + shares.foldl
        (fun term sh2 =>
          if sh1.point ≠ sh2.point then term * ((-sh2.point) / (sh1.point - sh2.point))
          else term)
        sh1.value)
    0

end EVSS

/-- `DensePolynomial::naive_mul` (the external capability used by
`Biaccumulator::commit`): the zero polynomial if either factor is zero,
otherwise the convolution of the two coefficient vectors, entry
`k = Σ_{i+j=k} a_i * b_j` (out-of-range reads are zero). -/
def naive_mul [Field F] (a b : List F) : List F :=
  if a.isEmpty ∨ b.isEmpty then []
  else (List.range (a.length + b.length - 1)).map fun k =>
    ∑ i ∈ Finset.range (k + 1), a.getD i 0 * b.getD (k - i) 0

/-- The accumulator polynomial built by `Biaccumulator::commit`: start from
the constant polynomial `1` and multiply one monic linear factor
`(x - c)` (coefficients `[-c, 1]`) per credential. -/
def buildAccPoly [Field F] (cred : List F) : List F :=
  cred.foldl (fun p c => naive_mul p [-c, 1]) [1]

namespace Biaccumulator

variable [Field F] (PC : CommitmentScheme F)

/-- `Biaccumulator::setup` (src/biaccumulator.rs lines 19-24): delegates to
`EVSS::setup`. -/
def setup (degree : Nat) (r : Rng F) : Except PC.Error (EVSSParams F PC) × Rng F :=
  EVSS.setup PC degree r

/-- `Biaccumulator::commit` (src/biaccumulator.rs lines 26-42). -/
def commit (pp : EVSSParams F PC) (cred : List F) (r : Rng F) :
    Except PC.Error (EVSSPolynomial F PC) × Rng F :=
  let p := buildAccPoly cred
  let c := PC.commit pp.committer_key p r
  match c.1 with
  | .error e => (.error e, c.2)
  | .ok (lc, rd) => (.ok ⟨p, lc, rd⟩, c.2)

/-- `Biaccumulator::create_witness` (src/biaccumulator.rs lines 44-51):
delegates to `EVSS::get_share` at `point = cred`. -/
def create_witness (cred : F) (params : EVSSParams F PC) (poly : EVSSPolynomial F PC)
    (r : Rng F) : Except PC.Error (EVSSShare F PC) × Rng F :=
  EVSS.get_share PC cred params poly r

/-- `Biaccumulator::check` (src/biaccumulator.rs lines 53-71): fast-reject a
witness with a nonzero value, otherwise delegate to the commitment scheme. -/
def check [DecidableEq F] (params : EVSSPublicParams F PC) (cm : EVSSCommit F PC)
    (share : EVSSShare F PC) (r : Rng F) : Except PC.Error Bool × Rng F :=
  if share.value ≠ 0 then (.ok false, r)
  else PC.check params.verifier_key cm.commit share.point share.value share.proof
    share.challenge r

end Biaccumulator

/-- A degenerate commitment scheme instantiation used to evaluate the
protocol layer on concrete inputs (all key and proof types are `Unit`, every
operation succeeds). -/
def trivialPC (F : Type) : CommitmentScheme F where
  UniversalParams := Unit
  CommitterKey := Unit
  VerifierKey := Unit
  Commitment := Unit
  Randomness := Unit
  Proof := Unit
  Error := Unit
  setup := fun _ r => (.ok (), r)
  trim := fun _ _ => .ok ((), ())
  commit := fun _ _ r => (.ok ((), ()), r)
  openAt := fun _ _ _ _ _ _ r => (.ok (), r)
  check := fun _ _ _ _ _ _ r => (.ok true, r)

/-- Interpretation of a coefficient list (lowest degree first) as a Mathlib
polynomial, Horner style. -/
noncomputable def toPoly [Field F] : List F → Polynomial F
  | [] => 0
  | c :: cs => Polynomial.C c + Polynomial.X * toPoly cs

/-! ## Basic fold and polynomial lemmas -/

theorem foldl_add_map_sum {α M : Type} [AddCommMonoid M] (f : α → M) (l : List α) (a : M) :
    List.foldl (fun res x => res + f x) a l = a + (l.map f).sum := by
  induction l generalizing a with
  | nil => simp
  | cons x xs ih => simp [ih, add_assoc]

theorem foldl_ite_mul_map_prod {α M : Type} [CommMonoid M] (P : α → Prop) [DecidablePred P]
    (g : α → M) (l : List α) (a : M) :
    List.foldl (fun t x => if P x then t * g x else t) a l
      = a * ((l.filter (fun x => decide (P x))).map g).prod := by
  induction l generalizing a with
  | nil => simp
  | cons x xs ih =>
    by_cases h : P x <;> simp [List.filter_cons, h, ih, mul_assoc]

theorem evalPoly_eq_toPoly_eval [Field F] (l : List F) (x : F) :
    evalPoly l x = (toPoly l).eval x := by
  induction l with
  | nil => simp [evalPoly, toPoly]
  | cons c cs ih =>
    show c + x * evalPoly cs x = _
    simp [toPoly, ih, mul_comm]

theorem toPoly_coeff [Field F] (l : List F) (n : Nat) : (toPoly l).coeff n = l.getD n 0 := by
  induction l generalizing n with
  | nil => simp [toPoly]
  | cons c cs ih =>
    cases n with
    | zero =>
      simp [toPoly, Polynomial.mul_coeff_zero, Polynomial.coeff_X_zero]
    | succ m =>
      simp [toPoly, Polynomial.coeff_X_mul, ih]

theorem toPoly_degree_lt [Field F] (l : List F) :
    (toPoly l).degree < (l.length : ℕ) := by
  rw [Polynomial.degree_lt_iff_coeff_zero]
  intro m hm
  rw [toPoly_coeff]
  exact List.getD_eq_default _ _ hm

/-- `EVSS::reconstruct` written as an explicit Lagrange sum over the share
list: each share contributes its value times the product of
`(-pⱼ)/(pᵢ-pⱼ)` over all shares with a different point. -/
theorem reconstruct_eq_sum [Field F] [DecidableEq F] (PC : CommitmentScheme F)
    (l : List (EVSSShare F PC)) :
    EVSS.reconstruct PC l = (l.map (fun sh1 => sh1.value *
      ((l.filter (fun sh2 => decide (sh1.point ≠ sh2.point))).map
        (fun sh2 => (-sh2.point) / (sh1.point - sh2.point))).prod)).sum := by
  unfold EVSS.reconstruct
  rw [foldl_add_map_sum
    (fun sh1 => List.foldl
      (fun term sh2 =>
        if sh1.point ≠ sh2.point then term * ((-sh2.point) / (sh1.point - sh2.point))
        else term) sh1.value l) l 0, zero_add]
  refine congrArg List.sum (List.map_congr_left fun sh1 _ => ?_)
  exact foldl_ite_mul_map_prod (fun sh2 => sh1.point ≠ sh2.point) _ l sh1.value

theorem filter_map_prod_eq {α M : Type} [CommMonoid M] (P : α → Prop) [DecidablePred P]
    (g : α → M) (l : List α) :
    ((l.filter (fun x => decide (P x))).map g).prod
      = (l.map fun x => if P x then g x else 1).prod := by
  induction l with
  | nil => rfl
  | cons x xs ih => by_cases h : P x <;> simp [List.filter_cons, h, ih]

/-- Core correctness of the interpolation loop: if the shares' points are
pairwise distinct, each share's value is the evaluation of a polynomial at
its point, and that polynomial has fewer coefficients than there are shares,
then `EVSS::reconstruct` returns the polynomial's value at `0`. -/
theorem reconstruct_eq_eval_zero [Field F] [DecidableEq F] (PC : CommitmentScheme F)
    (coeffs : List F) (l : List (EVSSShare F PC))
    (hdeg : (toPoly coeffs).degree < (l.length : ℕ))
    (hnd : (l.map EVSSShare.point).Nodup)
    (hval : ∀ sh ∈ l, sh.value = evalPoly coeffs sh.point) :
    EVSS.reconstruct PC l = evalPoly coeffs 0 := by
  classical
  have hmapv : l.map EVSSShare.point = List.ofFn (fun i => (l.get i).point) := by
    conv_lhs => rw [← List.ofFn_get l]
    rw [List.map_ofFn]
    rfl
  have hinj : Function.Injective (fun i => (l.get i).point) :=
    List.nodup_ofFn.mp (hmapv ▸ hnd)
  have hrec : EVSS.reconstruct PC l
      = ∑ i : Fin l.length, (toPoly coeffs).eval ((l.get i).point) *
          ∏ j ∈ Finset.univ.erase i,
            ((-(l.get j).point) / ((l.get i).point - (l.get j).point)) := by
    rw [reconstruct_eq_sum]
    conv_lhs => rw [← List.ofFn_get l, List.map_ofFn, List.sum_ofFn]
    refine Finset.sum_congr rfl fun i _ => ?_
    show (l.get i).value * _ = _
    rw [filter_map_prod_eq (fun sh2 : EVSSShare F PC => (l.get i).point ≠ sh2.point)
      (fun sh2 => -sh2.point / ((l.get i).point - sh2.point)) (List.ofFn l.get),
      List.map_ofFn, List.prod_ofFn]
    have hfil : (Finset.univ.filter
        (fun j : Fin l.length => (l.get i).point ≠ (l.get j).point))
        = Finset.univ.erase i := by
      ext j
      simp only [Finset.mem_filter, Finset.mem_erase, Finset.mem_univ, true_and, and_true]
      constructor
      · intro h
        intro hji
        exact h (by rw [hji])
      · intro hji h
        exact hji (hinj h).symm
    simp only [Function.comp_apply]
    rw [← Finset.prod_filter, hfil, hval (l.get i) (l.get_mem i i.isLt),
      evalPoly_eq_toPoly_eval]
  have hdeg' : (toPoly coeffs).degree
      < ((Finset.univ : Finset (Fin l.length)).card : WithBot ℕ) := by
    simpa [Finset.card_univ] using hdeg
  have keyP := Lagrange.eq_interpolate
    (v := fun i => (l.get i).point) (s := Finset.univ) (f := toPoly coeffs)
    (Function.Injective.injOn hinj) hdeg'
  have hL : (toPoly coeffs).eval 0
      = ∑ i : Fin l.length, (toPoly coeffs).eval ((l.get i).point) *
          ∏ j ∈ Finset.univ.erase i,
            ((-(l.get j).point) / ((l.get i).point - (l.get j).point)) := by
    conv_lhs => rw [keyP]
    rw [Lagrange.interpolate_apply, Polynomial.eval_finset_sum]
    refine Finset.sum_congr rfl fun i _ => ?_
    rw [Polynomial.eval_mul, Polynomial.eval_C, Lagrange.basis, Polynomial.eval_prod]
    refine congrArg _ (Finset.prod_congr rfl fun j _ => ?_)
    rw [Lagrange.basisDivisor, Polynomial.eval_mul, Polynomial.eval_C,
      Polynomial.eval_sub, Polynomial.eval_X, Polynomial.eval_C,
      zero_sub, div_eq_mul_inv, mul_comm]
  rw [hrec, evalPoly_eq_toPoly_eval, hL]

/-! ## Randomness-source bookkeeping for `EVSS::commit` -/

/-- Drawing `n` successive elements from the randomness source. -/
def randList {F : Type} : Nat → Rng F → List F × Rng F
  | 0, r => ([], r)
  | n + 1, r =>
    let p := randF r
    let q := randList n p.2
    (p.1 :: q.1, q.2)

theorem randList_eq {F : Type} (n : Nat) (r : Rng F) :
    randList n r
      = (List.ofFn (fun i : Fin n => r.stream (r.pos + i)), ⟨r.stream, r.pos + n⟩) := by
  induction n generalizing r with
  | zero => simp [randList]
  | succ m ih =>
    simp only [randList, randF, ih]
    refine Prod.ext ?_ ?_
    · rw [List.ofFn_succ]
      simp only [Fin.val_zero, Nat.add_zero, Fin.val_succ]
      refine congrArg _ (congrArg _ (funext fun i => congrArg _ (by omega)))
    · simp only
      refine congrArg _ (by omega)

theorem buildSecretVecAux_ne_zero [Field F] (s : F) (is : List Nat) (r : Rng F)
    (h : ∀ i ∈ is, i ≠ 0) :
    buildSecretVecAux s is r = randList is.length r := by
  induction is generalizing r with
  | nil => rfl
  | cons i it ih =>
    have hi : ¬ i = 0 := h i (List.mem_cons_self i it)
    simp [buildSecretVecAux, randList, hi,
      ih _ (fun j hj => h j (List.mem_cons_of_mem i hj))]

theorem buildSecretVec_zero [Field F] (s : F) (r : Rng F) :
    buildSecretVec 0 s r = ([], r) := rfl

theorem buildSecretVec_succ [Field F] (n : Nat) (s : F) (r : Rng F) :
    buildSecretVec (n + 1) s r = (s :: (randList n r).1, (randList n r).2) := by
  unfold buildSecretVec
  rw [List.range_succ_eq_map]
  have hz : (0 : Nat) = 0 := rfl
  simp only [buildSecretVecAux, if_pos hz]
  rw [buildSecretVecAux_ne_zero _ _ _ (by
    intro i hi
    rcases List.mem_map.mp hi with ⟨j, _, rfl⟩
    exact Nat.succ_ne_zero j)]
  simp

theorem buildSecretVec_fst_succ [Field F] (n : Nat) (s : F) (r : Rng F) :
    (buildSecretVec (n + 1) s r).1
      = s :: List.ofFn (fun i : Fin n => r.stream (r.pos + i)) := by
  rw [buildSecretVec_succ, randList_eq]

theorem buildSecretVec_length [Field F] (d : Nat) (s : F) (r : Rng F) :
    (buildSecretVec d s r).1.length = d := by
  cases d with
  | zero => rfl
  | succ n => simp [buildSecretVec_fst_succ]

theorem buildSecretVec_getD_zero [Field F] (d : Nat) (s : F) (r : Rng F) (hd : 1 ≤ d) :
    (buildSecretVec d s r).1.getD 0 0 = s := by
  cases d with
  | zero => omega
  | succ n => simp [buildSecretVec_fst_succ]

theorem buildSecretVec_getD_pos [Field F] (d : Nat) (s : F) (r : Rng F) (i : Nat)
    (h1 : 1 ≤ i) (h2 : i < d) :
    (buildSecretVec d s r).1.getD i 0 = r.stream (r.pos + (i - 1)) := by
  cases d with
  | zero => omega
  | succ n =>
    rw [buildSecretVec_fst_succ]
    obtain ⟨j, rfl⟩ : ∃ j, i = j + 1 := ⟨i - 1, by omega⟩
    have hj : j < n := by omega
    simp [List.getD_eq_getElem?_getD, List.getElem?_ofFn, hj]

theorem buildSecretVec_eval_zero [Field F] (d : Nat) (s : F) (r : Rng F) (hd : 1 ≤ d) :
    evalPoly (buildSecretVec d s r).1 0 = s := by
  cases d with
  | zero => omega
  | succ n => simp [buildSecretVec_fst_succ, evalPoly]

/-! ## Extracting the structure of successful `commit` and `get_share` calls -/

theorem commit_ok_polynomial [Field F] (PC : CommitmentScheme F) (pp : EVSSParams F PC)
    (s : F) (r : Rng F) (poly : EVSSPolynomial F PC)
    (h : (EVSS.commit PC pp s r).1 = Except.ok poly) :
    poly.polynomial = (buildSecretVec pp.degree s r).1 := by
  unfold EVSS.commit at h
  simp only at h
  split at h
  · exact absurd h (by simp)
  · rename_i lc rd heq
    injection h with h2
    rw [← h2]

theorem get_share_ok [Field F] (PC : CommitmentScheme F) (p : F)
    (params : EVSSParams F PC) (poly : EVSSPolynomial F PC) (r : Rng F)
    (sh : EVSSShare F PC)
    (h : (EVSS.get_share PC p params poly r).1 = Except.ok sh) :
    sh.point = p ∧ sh.value = evalPoly poly.polynomial p := by
  unfold EVSS.get_share at h
  simp only at h
  split at h
  · exact absurd h (by simp)
  · injection h with h2
    rw [← h2]
    exact ⟨rfl, rfl⟩

/-! ## The accumulator polynomial is the product of its linear factors -/

theorem naive_mul_getD [Field F] (a b : List F) (hA : ¬a.isEmpty = true)
    (hB : ¬b.isEmpty = true) (n : Nat) :
    (naive_mul a b).getD n 0
      = if n < a.length + b.length - 1
        then ∑ i ∈ Finset.range (n + 1), a.getD i 0 * b.getD (n - i) 0
        else 0 := by
  unfold naive_mul
  rw [if_neg (by simp [hA, hB])]
  by_cases h : n < a.length + b.length - 1
  · rw [if_pos h]
    simp [List.getD_eq_getElem?_getD, List.getElem?_map, List.getElem?_range h]
  · rw [if_neg h]
    refine List.getD_eq_default _ _ ?_
    simpa using Nat.le_of_not_lt h

theorem toPoly_naive_mul [Field F] (a b : List F) :
    toPoly (naive_mul a b) = toPoly a * toPoly b := by
  by_cases hA : a.isEmpty
  · rw [List.isEmpty_iff.mp hA]
    simp [naive_mul, toPoly]
  by_cases hB : b.isEmpty
  · rw [List.isEmpty_iff.mp hB]
    simp [naive_mul, toPoly]
  have hA1 : 1 ≤ a.length := List.length_pos.mpr (by simpa [List.isEmpty_iff] using hA)
  have hB1 : 1 ≤ b.length := List.length_pos.mpr (by simpa [List.isEmpty_iff] using hB)
  ext n
  rw [toPoly_coeff, Polynomial.coeff_mul, Finset.Nat.sum_antidiagonal_eq_sum_range_succ_mk,
    naive_mul_getD a b hA hB n]
  simp only [toPoly_coeff]
  by_cases h : n < a.length + b.length - 1
  · rw [if_pos h]
  · rw [if_neg h]
    symm
    refine Finset.sum_eq_zero fun i _ => ?_
    by_cases hia : i < a.length
    · rw [List.getD_eq_default b _ (by omega), mul_zero]
    · rw [List.getD_eq_default a _ (by omega), zero_mul]

theorem toPoly_foldl_naive_mul [Field F] (cred : List F) (init : List F) :
    toPoly (cred.foldl (fun p c => naive_mul p [-c, 1]) init)
      = toPoly init * (cred.map fun c => Polynomial.X - Polynomial.C c).prod := by
  induction cred generalizing init with
  | nil => simp
  | cons c cs ih =>
    rw [List.foldl_cons, ih, toPoly_naive_mul]
    have h2 : toPoly [-c, 1] = Polynomial.X - Polynomial.C c := by
      simp [toPoly]
      ring
    rw [h2, List.map_cons, List.prod_cons, mul_assoc]

theorem toPoly_buildAccPoly [Field F] (cred : List F) :
    toPoly (buildAccPoly cred) = (cred.map fun c => Polynomial.X - Polynomial.C c).prod := by
  unfold buildAccPoly
  rw [toPoly_foldl_naive_mul]
  simp [toPoly]

theorem buildAccPoly_eval_mem [Field F] (cred : List F) (c : F) (hc : c ∈ cred) :
    evalPoly (buildAccPoly cred) c = 0 := by
  rw [evalPoly_eq_toPoly_eval, toPoly_buildAccPoly, Polynomial.eval_list_prod, List.map_map]
  refine List.prod_eq_zero (List.mem_map.mpr ⟨c, hc, ?_⟩)
  simp

theorem bi_commit_ok_polynomial [Field F] (PC : CommitmentScheme F) (pp : EVSSParams F PC)
    (cred : List F) (r : Rng F) (poly : EVSSPolynomial F PC)
    (h : (Biaccumulator.commit PC pp cred r).1 = Except.ok poly) :
    poly.polynomial = buildAccPoly cred := by
  unfold Biaccumulator.commit at h
  simp only at h
  split at h
  · exact absurd h (by simp)
  · injection h with h2
    rw [← h2]

/-! ## `reconstruct` depends only on the shares' point/value data -/

/-- One Lagrange term of the interpolation, computed from a `(point, value)`
pair and the list of all points. -/
def lagrangeTermPV [Field F] [DecidableEq F] (a : F × F) (ps : List F) : F :=
  a.2 * ((ps.filter (fun q => decide (a.1 ≠ q))).map (fun q => (-q) / (a.1 - q))).prod

/-- The interpolation sum computed from the `(point, value)` projections of
the shares alone. -/
def reconstructPV [Field F] [DecidableEq F] (pvl : List (F × F)) : F :=
  (pvl.map (fun a => lagrangeTermPV a (pvl.map Prod.fst))).sum

theorem reconstruct_eq_reconstructPV [Field F] [DecidableEq F] (PC : CommitmentScheme F)
    (l : List (EVSSShare F PC)) :
    EVSS.reconstruct PC l = reconstructPV (l.map fun sh => (sh.point, sh.value)) := by
  rw [reconstruct_eq_sum]
  unfold reconstructPV
  rw [List.map_map, List.map_map]
  refine congrArg List.sum (List.map_congr_left fun sh _ => ?_)
  simp only [Function.comp_apply]
  unfold lagrangeTermPV
  rw [List.filter_map, List.map_map]
  rfl

theorem reconstruct_perm_aux [Field F] [DecidableEq F] (PC : CommitmentScheme F)
    (l l' : List (EVSSShare F PC)) (hperm : l.Perm l') :
    EVSS.reconstruct PC l = EVSS.reconstruct PC l' := by
  rw [reconstruct_eq_sum, reconstruct_eq_sum]
  have h1 : ∀ sh1 : EVSSShare F PC,
      ((l.filter (fun sh2 => decide (sh1.point ≠ sh2.point))).map
        (fun sh2 => -sh2.point / (sh1.point - sh2.point))).prod
      = ((l'.filter (fun sh2 => decide (sh1.point ≠ sh2.point))).map
        (fun sh2 => -sh2.point / (sh1.point - sh2.point))).prod :=
    fun sh1 => ((hperm.filter _).map _).prod_eq
  refine Eq.trans (congrArg List.sum (List.map_congr_left fun sh1 _ => ?_))
    ((hperm.map _).sum_eq)
  rw [h1 sh1]

/-! ## Claim theorems -/

instance : Fact (Nat.Prime 101) := ⟨by norm_num⟩

/-- C1: EVSS round trip. For any secret `s`, any degree `≥ 2`, and shares with
pairwise-distinct points, at least `degree` of them, each produced by
`get_share` from a successful `commit` of `s` under params of that degree,
`reconstruct` over those shares returns exactly `s`. -/
theorem evss_round_trip {F : Type} [Field F] [DecidableEq F] (PC : CommitmentScheme F)
    (pp : EVSSParams F PC) (s : F) (r0 : Rng F) (poly : EVSSPolynomial F PC)
    (shares : List (EVSSShare F PC))
    (hdeg : 2 ≤ pp.degree)
    (hcommit : (EVSS.commit PC pp s r0).1 = Except.ok poly)
    (hshares : ∀ sh ∈ shares, ∃ rr,
      (EVSS.get_share PC sh.point pp poly rr).1 = Except.ok sh)
    (hlen : pp.degree ≤ shares.length)
    (hnd : (shares.map EVSSShare.point).Nodup) :
    EVSS.reconstruct PC shares = s := by
  have hpoly := commit_ok_polynomial PC pp s r0 poly hcommit
  have hval : ∀ sh ∈ shares, sh.value = evalPoly (buildSecretVec pp.degree s r0).1 sh.point := by
    intro sh hsh
    obtain ⟨rr, hok⟩ := hshares sh hsh
    obtain ⟨_, hv⟩ := get_share_ok PC sh.point pp poly rr sh hok
    rw [hv, hpoly]
  have hdlt : (toPoly (buildSecretVec pp.degree s r0).1).degree < (shares.length : ℕ) := by
    have h1 := toPoly_degree_lt (buildSecretVec pp.degree s r0).1
    rw [buildSecretVec_length] at h1
    exact lt_of_lt_of_le h1 (by exact_mod_cast hlen)
  rw [reconstruct_eq_eval_zero PC (buildSecretVec pp.degree s r0).1 shares hdlt hnd hval,
    buildSecretVec_eval_zero _ _ _ (by omega)]

/-- Witness for C1: with the trivial commitment scheme over `ZMod 101`,
secret `17`, degree `2`, randomness stream `n ↦ n + 5` (so the committed
coefficients are `[17, 5]`), the shares at points `1` and `2` carry values
`22` and `27`, and `reconstruct` returns `17`. -/
theorem evss_round_trip_witness :
    EVSS.reconstruct (trivialPC (ZMod 101)) [⟨1, 22, 0, ()⟩, ⟨2, 27, 0, ()⟩]
      = (17 : ZMod 101) := by
  refine evss_round_trip (trivialPC (ZMod 101)) ⟨2, (), ()⟩ 17
    ⟨fun n => (n + 5 : ZMod 101), 0⟩ ⟨[17, 5], (), ()⟩ _ (by decide) rfl ?_ (by decide)
    (by decide)
  intro sh hsh
  rcases List.mem_cons.mp hsh with rfl | hsh2
  · exact ⟨⟨fun _ => 0, 0⟩, rfl⟩
  rcases List.mem_cons.mp hsh2 with rfl | hsh3
  · exact ⟨⟨fun _ => 0, 0⟩, rfl⟩
  · exact absurd hsh3 (List.not_mem_nil sh)

/-- C2: the source has no reconstruction-hazard error. Given two shares with
the same point `1` but different values `2` and `3`, `reconstruct` silently
returns the field element `5` (the guarded inner loop simply skips the
equal-point factor), rather than raising any error. -/
theorem reconstruct_duplicate_point_silent :
    EVSS.reconstruct (trivialPC (ZMod 101)) [⟨1, 2, 0, ()⟩, ⟨1, 3, 0, ()⟩]
      = (5 : ZMod 101) := by
  decide

/-- C3: a successful `EVSS::commit` stores the coefficient vector of length
exactly `degree` whose index-0 entry is the secret and whose entries
`1 ≤ i < degree` are the successive draws from the randomness source; hence
for `degree ≥ 1` the committed polynomial evaluates to the secret at `0`. -/
theorem evss_commit_builds_secret_vector {F : Type} [Field F] (PC : CommitmentScheme F)
    (pp : EVSSParams F PC) (s : F) (r : Rng F) (poly : EVSSPolynomial F PC)
    (hc : (EVSS.commit PC pp s r).1 = Except.ok poly) :
    poly.polynomial.length = pp.degree ∧
    (1 ≤ pp.degree → poly.polynomial.getD 0 0 = s) ∧
    (∀ i, 1 ≤ i → i < pp.degree → poly.polynomial.getD i 0 = r.stream (r.pos + (i - 1))) ∧
    (1 ≤ pp.degree → evalPoly poly.polynomial 0 = s) := by
  rw [commit_ok_polynomial PC pp s r poly hc]
  exact ⟨buildSecretVec_length _ _ _, buildSecretVec_getD_zero _ _ _,
    fun i h1 h2 => buildSecretVec_getD_pos _ _ _ i h1 h2,
    buildSecretVec_eval_zero _ _ _⟩

/-- Witness for C3: committing secret `17` at degree `3` with randomness
stream `n ↦ n + 5` yields coefficients `[17, 5, 6]`. -/
theorem evss_commit_builds_secret_vector_witness :
    ([17, 5, 6] : List (ZMod 101)).length = 3 ∧
    ([17, 5, 6] : List (ZMod 101)).getD 0 0 = 17 ∧
    ([17, 5, 6] : List (ZMod 101)).getD 2 0 = 6 ∧
    evalPoly ([17, 5, 6] : List (ZMod 101)) 0 = 17 := by
  have h := evss_commit_builds_secret_vector (trivialPC (ZMod 101)) ⟨3, (), ()⟩ 17
    ⟨fun n => (n + 5 : ZMod 101), 0⟩ ⟨[17, 5, 6], (), ()⟩ rfl
  exact ⟨h.1, h.2.1 (by decide), (h.2.2.1 2 (by decide) (by decide)).trans (by decide),
    h.2.2.2 (by decide)⟩

/-- C4: `Biaccumulator::check` fast-rejects with `Ok(false)` (and an
untouched randomness source, for every commitment scheme) whenever the
witness value is nonzero; otherwise it returns exactly the commitment
scheme's `check` verdict on the witness's point, value, proof and
challenge. -/
theorem biaccumulator_check_fast_reject {F : Type} [Field F] [DecidableEq F]
    (PC : CommitmentScheme F) (params : EVSSPublicParams F PC) (cm : EVSSCommit F PC)
    (share : EVSSShare F PC) (r : Rng F) :
    (share.value ≠ 0 → Biaccumulator.check PC params cm share r = (Except.ok false, r)) ∧
    (share.value = 0 → Biaccumulator.check PC params cm share r
      = PC.check params.verifier_key cm.commit share.point share.value share.proof
          share.challenge r) := by
  constructor
  · intro h
    simp [Biaccumulator.check, h]
  · intro h
    simp [Biaccumulator.check, h]

/-- Witness for C4: a witness with value `1` is rejected without consulting
the scheme; a witness with value `0` gets the scheme's verdict. -/
theorem biaccumulator_check_fast_reject_witness :
    Biaccumulator.check (trivialPC (ZMod 101)) ⟨3, ()⟩ ⟨()⟩ ⟨1, 1, 0, ()⟩ ⟨fun _ => 0, 0⟩
      = (Except.ok false, ⟨fun _ => 0, 0⟩) ∧
    Biaccumulator.check (trivialPC (ZMod 101)) ⟨3, ()⟩ ⟨()⟩ ⟨1, 0, 0, ()⟩ ⟨fun _ => 0, 0⟩
      = (trivialPC (ZMod 101)).check () () 1 0 () 0 ⟨fun _ => 0, 0⟩ :=
  ⟨(biaccumulator_check_fast_reject (trivialPC (ZMod 101)) ⟨3, ()⟩ ⟨()⟩ ⟨1, 1, 0, ()⟩
      ⟨fun _ => 0, 0⟩).1 (by decide),
   (biaccumulator_check_fast_reject (trivialPC (ZMod 101)) ⟨3, ()⟩ ⟨()⟩ ⟨1, 0, 0, ()⟩
      ⟨fun _ => 0, 0⟩).2 rfl⟩

/-- C5: a successful `Biaccumulator::commit` stores the monic polynomial
`Π_{c ∈ credentials} (x - c)` (built from the constant polynomial `1` by one
`naive_mul` per credential), and that polynomial evaluates to zero at every
credential in the slice. -/
theorem biaccumulator_commit_root_product {F : Type} [Field F] (PC : CommitmentScheme F)
    (pp : EVSSParams F PC) (cred : List F) (r : Rng F) (poly : EVSSPolynomial F PC)
    (hc : (Biaccumulator.commit PC pp cred r).1 = Except.ok poly) :
    poly.polynomial = buildAccPoly cred ∧
    toPoly poly.polynomial = (cred.map fun c => Polynomial.X - Polynomial.C c).prod ∧
    ∀ c ∈ cred, evalPoly poly.polynomial c = 0 := by
  have h := bi_commit_ok_polynomial PC pp cred r poly hc
  refine ⟨h, ?_, ?_⟩
  · rw [h, toPoly_buildAccPoly]
  · intro c hcm
    rw [h]
    exact buildAccPoly_eval_mem cred c hcm

/-- Witness for C5: the accumulator polynomial of credentials `{5, 9, 13}`
evaluates to `0` at the member `9`. -/
theorem biaccumulator_commit_root_product_witness :
    evalPoly (buildAccPoly ([5, 9, 13] : List (ZMod 101))) 9 = 0 := by
  have h := biaccumulator_commit_root_product (trivialPC (ZMod 101)) ⟨4, (), ()⟩
    [5, 9, 13] ⟨fun _ => 0, 0⟩ ⟨buildAccPoly [5, 9, 13], (), ()⟩ rfl
  exact h.2.2 9 (by decide)

/-- C6: `Biaccumulator::setup` returns exactly `EVSS::setup` on all inputs,
and `Biaccumulator::create_witness` returns exactly `EVSS::get_share`,
opening the accumulator polynomial at `point = cred`. -/
theorem biaccumulator_refines_evss {F : Type} [Field F] (PC : CommitmentScheme F) :
    (∀ (degree : Nat) (r : Rng F),
      Biaccumulator.setup PC degree r = EVSS.setup PC degree r) ∧
    (∀ (cred : F) (params : EVSSParams F PC) (poly : EVSSPolynomial F PC) (r : Rng F),
      Biaccumulator.create_witness PC cred params poly r
        = EVSS.get_share PC cred params poly r) :=
  ⟨fun _ _ => rfl, fun _ _ _ _ => rfl⟩

/-- C7: every operation is a pure function of its explicit arguments and the
state of the supplied randomness source: two runs on identical arguments and
identical randomness-source states give identical results, and
`reconstruct`, which takes no randomness, is fully determined by its share
collection's `(point, value)` data. -/
theorem operations_stateless_deterministic {F : Type} [Field F] [DecidableEq F]
    (PC : CommitmentScheme F) (d : Nat) (pp : EVSSParams F PC)
    (ppub : EVSSPublicParams F PC) (cm : EVSSCommit F PC) (s p : F)
    (poly : EVSSPolynomial F PC) (sh : EVSSShare F PC) (cred : List F)
    (r1 r2 : Rng F) (hs : r1.stream = r2.stream) (hp : r1.pos = r2.pos) :
    EVSS.setup PC d r1 = EVSS.setup PC d r2 ∧
    EVSS.commit PC pp s r1 = EVSS.commit PC pp s r2 ∧
    EVSS.get_share PC p pp poly r1 = EVSS.get_share PC p pp poly r2 ∧
    EVSS.check PC ppub cm sh r1 = EVSS.check PC ppub cm sh r2 ∧
    Biaccumulator.commit PC pp cred r1 = Biaccumulator.commit PC pp cred r2 ∧
    Biaccumulator.create_witness PC p pp poly r1
      = Biaccumulator.create_witness PC p pp poly r2 ∧
    Biaccumulator.check PC ppub cm sh r1 = Biaccumulator.check PC ppub cm sh r2 ∧
    (∀ (l l' : List (EVSSShare F PC)),
      l.map (fun x => (x.point, x.value)) = l'.map (fun x => (x.point, x.value)) →
      EVSS.reconstruct PC l = EVSS.reconstruct PC l') := by
  have hr : r1 = r2 := by
    cases r1
    cases r2
    simp_all
  subst hr
  refine ⟨rfl, rfl, rfl, rfl, rfl, rfl, rfl, ?_⟩
  intro l l' hmap
  rw [reconstruct_eq_reconstructPV, reconstruct_eq_reconstructPV, hmap]

/-- Witness for C7: shares differing only in challenge/proof data
reconstruct identically. -/
theorem operations_stateless_deterministic_witness :
    EVSS.reconstruct (trivialPC (ZMod 101)) [⟨1, 2, 0, ()⟩]
      = EVSS.reconstruct (trivialPC (ZMod 101)) [⟨1, 2, 1, ()⟩] := by
  have h := operations_stateless_deterministic (trivialPC (ZMod 101)) 2 ⟨2, (), ()⟩
    ⟨2, ()⟩ ⟨()⟩ 17 1 ⟨[17], (), ()⟩ ⟨1, 2, 0, ()⟩ [3] ⟨fun _ => 0, 0⟩ ⟨fun _ => 0, 0⟩
    rfl rfl
  exact h.2.2.2.2.2.2.2 [⟨1, 2, 0, ()⟩] [⟨1, 2, 1, ()⟩] rfl

/-- C8: `reconstruct` applied to an empty share collection returns the
field's zero element (the fold starts at `F::zero()` and adds nothing). -/
theorem reconstruct_empty {F : Type} [Field F] [DecidableEq F] (PC : CommitmentScheme F) :
    EVSS.reconstruct PC ([] : List (EVSSShare F PC)) = 0 := rfl

/-- C9: for a share collection with pairwise-distinct points, `reconstruct`
returns the same result under any permutation of the shares. -/
theorem reconstruct_permutation_invariant {F : Type} [Field F] [DecidableEq F]
    (PC : CommitmentScheme F) (l l' : List (EVSSShare F PC))
    (_hnd : (l.map EVSSShare.point).Nodup) (hperm : l.Perm l') :
    EVSS.reconstruct PC l = EVSS.reconstruct PC l' :=
  reconstruct_perm_aux PC l l' hperm

/-- Witness for C9: swapping two concrete shares leaves `reconstruct`
unchanged. -/
theorem reconstruct_permutation_invariant_witness :
    EVSS.reconstruct (trivialPC (ZMod 101)) [⟨1, 22, 0, ()⟩, ⟨2, 27, 0, ()⟩]
      = EVSS.reconstruct (trivialPC (ZMod 101)) [⟨2, 27, 0, ()⟩, ⟨1, 22, 0, ()⟩] :=
  reconstruct_permutation_invariant (trivialPC (ZMod 101)) _ _ (by decide)
    (List.Perm.swap _ _ _)

/-- C10: when `params.degree = 0`, a successful `EVSS::commit` stores the
empty coefficient vector, whose polynomial evaluates to `0` everywhere (so
the secret is not embedded); the index-0-is-the-secret property holds under
the precondition `degree ≥ 1`. -/
theorem evss_commit_degree_zero {F : Type} [Field F] (PC : CommitmentScheme F)
    (pp : EVSSParams F PC) (s : F) (r : Rng F) (poly : EVSSPolynomial F PC)
    (hdeg : pp.degree = 0) (hc : (EVSS.commit PC pp s r).1 = Except.ok poly) :
    poly.polynomial = [] ∧ (∀ x, evalPoly poly.polynomial x = 0) ∧
    (∀ d, 1 ≤ d → (buildSecretVec d s r).1.getD 0 0 = s) := by
  have h := commit_ok_polynomial PC pp s r poly hc
  rw [hdeg, buildSecretVec_zero] at h
  exact ⟨h, fun x => by rw [h]; simp [evalPoly],
    fun d hd => buildSecretVec_getD_zero d s r hd⟩

/-- Witness for C10: committing at degree `0` stores no coefficients, and
the degree-`1` vector does start with the secret. -/
theorem evss_commit_degree_zero_witness :
    evalPoly ([] : List (ZMod 101)) 7 = 0 ∧
    (buildSecretVec 1 (17 : ZMod 101) ⟨fun _ => 0, 0⟩).1.getD 0 0 = 17 := by
  have h := evss_commit_degree_zero (trivialPC (ZMod 101)) ⟨0, (), ()⟩ 17
    ⟨fun _ => 0, 0⟩ ⟨[], (), ()⟩ rfl rfl
  exact ⟨h.2.1 7, h.2.2 1 (by decide)⟩

end EVSSVerify
